import Mathlib

/-!
Shallow embedding of the resilience/caching subsystem of the
`tutorials-account-balances` repository: the retry executor with
exponential backoff (`withRetry`, `isRetryableError`), the circuit
breaker (`CircuitBreaker`), the TTL cache (`SimpleCache`) and the LRU
cache (`LRUCache`).  Times and delays are modelled as natural numbers
(milliseconds, as in the source), the JS `Map` as an association list in
insertion order, and the wrapped asynchronous operation as an oracle
giving the outcome of each invocation.
-/

instance {ε α : Type} [DecidableEq ε] [DecidableEq α] : DecidableEq (Except ε α) := fun x y =>
  match x, y with
  | Except.ok a, Except.ok b =>
    if h : a = b then isTrue (by rw [h])
    else isFalse (by intro hc; injection hc; contradiction)
  | Except.ok _, Except.error _ => isFalse (by intro hc; cases hc)
  | Except.error _, Except.ok _ => isFalse (by intro hc; cases hc)
  | Except.error a, Except.error b =>
    if h : a = b then isTrue (by rw [h])
    else isFalse (by intro hc; injection hc; contradiction)

/-- JavaScript error object as the retry module inspects it: an optional
string `code` field and a `message` string. -/
structure JsError where
  code : Option String
  message : String
deriving DecidableEq

/-- Substring containment, modelling JavaScript `String.includes`. -/
def strContains (s pat : String) : Bool :=
  (List.range (s.toList.length + 1)).any fun i =>
    List.take pat.toList.length (List.drop i s.toList) == pat.toList

/-- Embedding of `isRetryableError` from the retry module: the error is
retryable if its (truthy, hence non-empty) `code` is listed in
`retryableErrors`, or its message contains some listed string as a
substring.  Errors are modelled as objects, so the source's
non-object guard (which returns `false`) is not reachable here. -/
def isRetryableError (e : JsError) (retryableErrors : List String) : Bool :=
  (match e.code with
   | some c => (!(c == "")) && retryableErrors.contains c
   | none => false)
  || retryableErrors.any (fun pat => strContains e.message pat)

/-- Retry configuration after merging with the defaults (the source
merges a partial config over `DEFAULT_CONFIG` before the loop starts). -/
structure RetryConfig where
  maxAttempts : Nat
  initialDelay : Nat
  maxDelay : Nat
  backoffFactor : Nat
  retryableErrors : List String
deriving DecidableEq

/-- The source's `DEFAULT_CONFIG`. -/
def DEFAULT_CONFIG : RetryConfig :=
  ⟨3, 1000, 30000, 2, ["ECONNRESET", "ETIMEDOUT", "ECONNREFUSED", "EHOSTUNREACH"]⟩

/-- Observable outcome of a `withRetry` run: the settled result (the
rejection value is `none` only in the degenerate `maxAttempts = 0` case,
where the source throws an undefined `lastError`), the number of times
the wrapped operation was invoked, and the list of backoff delays waited
(in order). -/
structure RetryTrace (α : Type) where
  result : Except (Option JsError) α
  calls : Nat
  delays : List Nat

/-- Embedding of the `for` loop of `withRetry`.  `remaining + 1` is the
number of attempts still allowed including the current one, `attempt` is
the current 1-based attempt number, `delay` the current backoff delay,
and the last argument the `lastError` variable.  On an error at the last
attempt the loop breaks and the source throws `lastError` (the same
error); a non-retryable error is re-thrown at once; otherwise the loop
waits `delay` ms and continues with `min (delay * backoffFactor) maxDelay`. -/
def withRetryLoop (fn : Nat → Except JsError α) (retryableErrors : List String)
    (backoffFactor maxDelay : Nat) :
    Nat → Nat → Nat → Option JsError → RetryTrace α
  | 0, _, _, lastError => ⟨Except.error lastError, 0, []⟩
  | remaining + 1, attempt, delay, _ =>
    match fn attempt with
    | Except.ok v => ⟨Except.ok v, 1, []⟩
    | Except.error e =>
      if remaining = 0 then ⟨Except.error (some e), 1, []⟩
      else if !(isRetryableError e retryableErrors) then ⟨Except.error (some e), 1, []⟩
      else
        let t := withRetryLoop fn retryableErrors backoffFactor maxDelay remaining
          (attempt + 1) (min (delay * backoffFactor) maxDelay) (some e)
        ⟨t.result, t.calls + 1, delay :: t.delays⟩

/-- Embedding of `withRetry`: run the loop from attempt 1 with
`delay = initialDelay` and no `lastError` yet.  `fn k` is the outcome of
the `k`-th invocation of the wrapped operation. -/
def withRetry (fn : Nat → Except JsError α) (cfg : RetryConfig) : RetryTrace α :=
  withRetryLoop fn cfg.retryableErrors cfg.backoffFactor cfg.maxDelay
    cfg.maxAttempts 1 cfg.initialDelay none

/-- The delay update performed after each retryable failure. -/
def nextDelay (backoffFactor maxDelay d : Nat) : Nat :=
  min (d * backoffFactor) maxDelay

/-- One TTL cache entry: the stored value and its absolute expiry
timestamp in milliseconds. -/
structure CacheEntry (α : Type) where
  value : α
  expiresAt : Nat
deriving DecidableEq

/-- JS `Map.set` on the association-list model: an existing key is
updated in place (its insertion-order position is preserved); a new key
is appended at the end. -/
def mapSet (l : List (String × β)) (k : String) (v : β) : List (String × β) :=
  if l.any (fun p => p.1 == k) then
    l.map (fun p => if p.1 == k then (k, v) else p)
  else l ++ [(k, v)]

/-- JS `Map.delete` on the association-list model.  A `Map` holds each
key at most once, so filtering is exact on reachable states. -/
def mapDelete (l : List (String × β)) (k : String) : List (String × β) :=
  l.filter (fun p => !(p.1 == k))

/-- Embedding of `SimpleCache` (the TTL cache): a JS `Map` in insertion
order plus the construction-time `defaultTTL` (seconds). -/
structure SimpleCache (α : Type) where
  cache : List (String × CacheEntry α)
  defaultTTL : Nat

/-- JavaScript `ttl || defaultTTL`: `undefined` and the falsy `0` both
select the default. -/
def jsOrDefault (ttl : Option Nat) (d : Nat) : Nat :=
  match ttl with
  | some t => if t = 0 then d else t
  | none => d

/-- Embedding of `SimpleCache.set`: `expiresAt = Date.now() + (ttl || defaultTTL) * 1000`. -/
def SimpleCache.set (c : SimpleCache α) (now : Nat) (k : String) (v : α)
    (ttl : Option Nat) : SimpleCache α :=
  { c with cache := mapSet c.cache k ⟨v, now + (jsOrDefault ttl c.defaultTTL) * 1000⟩ }

/-- Embedding of `SimpleCache.get`: a missing key gives `none`; an entry
with `now > expiresAt` is lazily deleted and gives `none`; otherwise the
stored value is returned.  The second component is the cache after the
call (the read can mutate it). -/
def SimpleCache.get (c : SimpleCache α) (now : Nat) (k : String) :
    Option α × SimpleCache α :=
  match List.lookup k c.cache with
  | none => (none, c)
  | some entry =>
    if now > entry.expiresAt then (none, { c with cache := mapDelete c.cache k })
    else (some entry.value, c)

/-- Embedding of `SimpleCache.has`: `get(key) !== undefined`, including
its lazy-deletion side effect. -/
def SimpleCache.hasOp (c : SimpleCache α) (now : Nat) (k : String) :
    Bool × SimpleCache α :=
  let r := c.get now k
  (r.1.isSome, r.2)

/-- Embedding of `SimpleCache.delete`: `Map.delete` returns whether an
entry was physically present, with no expiry check. -/
def SimpleCache.delete (c : SimpleCache α) (k : String) : Bool × SimpleCache α :=
  (c.cache.any (fun p => p.1 == k), { c with cache := mapDelete c.cache k })

/-- Embedding of `SimpleCache.clear`. -/
def SimpleCache.clear (c : SimpleCache α) : SimpleCache α :=
  { c with cache := [] }

/-- Embedding of `SimpleCache.size`. -/
def SimpleCache.size (c : SimpleCache α) : Nat :=
  c.cache.length

/-- The loop of `SimpleCache.cleanup`: iterate over the entries, delete
each one with `now > expiresAt` and count the removals.  Deleting the
entry under the iterator does not disturb the rest of a JS `Map`
iteration, so the loop is structural recursion over the entry list. -/
def cleanupLoop (now : Nat) : List (String × CacheEntry α) → Nat × List (String × CacheEntry α)
  | [] => (0, [])
  | p :: rest =>
    let r := cleanupLoop now rest
    if now > p.2.expiresAt then (r.1 + 1, r.2) else (r.1, p :: r.2)

/-- Embedding of `SimpleCache.cleanup`: returns the number of removed
entries and the swept cache. -/
def SimpleCache.cleanup (c : SimpleCache α) (now : Nat) : Nat × SimpleCache α :=
  let r := cleanupLoop now c.cache
  (r.1, { c with cache := r.2 })

/-- One LRU cache entry: the stored value and the informational access
timestamp (recency itself is encoded by list position). -/
structure LRUEntry (α : Type) where
  value : α
  timestamp : Nat
deriving DecidableEq

/-- Embedding of `LRUCache`: a JS `Map` in insertion order (head =
least recently used) plus the capacity `maxSize`. -/
structure LRUCache (α : Type) where
  cache : List (String × LRUEntry α)
  maxSize : Nat

/-- A freshly constructed `LRUCache` with the given `maxSize`. -/
def LRUCache.empty (α : Type) (maxSize : Nat) : LRUCache α :=
  ⟨[], maxSize⟩

/-- Embedding of `LRUCache.set`: delete the key if present, then, if
still at capacity, delete `firstKey` (the first key of the map — with
unique keys, exactly the head; on the empty map `firstKey` is
`undefined` and the delete is a no-op, matching `List.tail [] = []`),
then append the new entry at the most-recently-used end. -/
def LRUCache.set (c : LRUCache α) (now : Nat) (k : String) (v : α) : LRUCache α :=
  let l1 := if c.cache.any (fun p => p.1 == k) then mapDelete c.cache k else c.cache
  let l2 := if c.maxSize ≤ l1.length then l1.tail else l1
  { c with cache := l2 ++ [(k, ⟨v, now⟩)] }

/-- Embedding of `LRUCache.get`: a hit deletes the entry and re-inserts
it (with a refreshed timestamp) at the most-recently-used end, returning
the stored value; a miss changes nothing. -/
def LRUCache.get (c : LRUCache α) (now : Nat) (k : String) :
    Option α × LRUCache α :=
  match List.lookup k c.cache with
  | none => (none, c)
  | some e => (some e.value, { c with cache := mapDelete c.cache k ++ [(k, ⟨e.value, now⟩)] })

/-- Embedding of `LRUCache.has`: a plain `Map.has` membership test; the
source method performs no mutation, so the state is returned unchanged. -/
def LRUCache.hasOp (c : LRUCache α) (k : String) : Bool × LRUCache α :=
  (c.cache.any (fun p => p.1 == k), c)

/-- Embedding of `LRUCache.delete`. -/
def LRUCache.delete (c : LRUCache α) (k : String) : Bool × LRUCache α :=
  (c.cache.any (fun p => p.1 == k), { c with cache := mapDelete c.cache k })

/-- Embedding of `LRUCache.clear`. -/
def LRUCache.clear (c : LRUCache α) : LRUCache α :=
  { c with cache := [] }

/-- Embedding of `LRUCache.size`. -/
def LRUCache.size (c : LRUCache α) : Nat :=
  c.cache.length

/-- One public mutating-or-reading operation on an `LRUCache`, used to
state invariants over arbitrary operation sequences. -/
inductive LRUOp (α : Type) where
  | setOp (now : Nat) (k : String) (v : α)
  | getOp (now : Nat) (k : String)
  | hasQ (k : String)
  | delOp (k : String)
  | clearOp

/-- State transition of a single `LRUOp`. -/
def LRUCache.step (c : LRUCache α) : LRUOp α → LRUCache α
  | LRUOp.setOp now k v => c.set now k v
  | LRUOp.getOp now k => (c.get now k).2
  | LRUOp.hasQ k => (c.hasOp k).2
  | LRUOp.delOp k => (c.delete k).2
  | LRUOp.clearOp => c.clear

/-- Run a sequence of operations left to right. -/
def LRUCache.run (c : LRUCache α) (ops : List (LRUOp α)) : LRUCache α :=
  ops.foldl LRUCache.step c

/-- Sequential `set` calls on the keys of `ks`, value `f k` for key `k`. -/
def LRUCache.setList (c : LRUCache α) (now : Nat) (ks : List String)
    (f : String → α) : LRUCache α :=
  ks.foldl (fun acc k => acc.set now k (f k)) c

/-- The `CircuitState` enum of the source. -/
inductive CircuitState where
  | CLOSED
  | OPEN
  | HALF_OPEN
deriving DecidableEq

/-- Circuit breaker instance state together with its (immutable)
configuration.  Times are integers (milliseconds). -/
structure CircuitBreaker where
  state : CircuitState
  failureCount : Nat
  lastFailureTime : Int
  successCount : Nat
  failureThreshold : Nat
  resetTimeout : Int
  monitoringPeriod : Int
deriving DecidableEq

/-- A freshly constructed breaker (source constructor defaults:
threshold 5, resetTimeout 60000 ms, monitoringPeriod 10000 ms). -/
def CircuitBreaker.make (failureThreshold : Nat) (resetTimeout monitoringPeriod : Int) :
    CircuitBreaker :=
  ⟨CircuitState.CLOSED, 0, 0, 0, failureThreshold, resetTimeout, monitoringPeriod⟩

/-- Result of a breaker call: either the circuit-open rejection or the
re-raised operation error. -/
inductive CBError where
  | circuitOpen
  | opFailed (e : JsError)
deriving DecidableEq

/-- Embedding of `CircuitBreaker.onSuccess`. -/
def CircuitBreaker.onSuccess (cb : CircuitBreaker) : CircuitBreaker :=
  let cb1 := { cb with failureCount := 0 }
  if cb1.state = CircuitState.HALF_OPEN then
    let cb2 := { cb1 with successCount := cb1.successCount + 1 }
    if 2 ≤ cb2.successCount then { cb2 with state := CircuitState.CLOSED } else cb2
  else cb1

/-- Embedding of `CircuitBreaker.onFailure` (the `Date.now()` it stores
is passed in as `now`). -/
def CircuitBreaker.onFailure (cb : CircuitBreaker) (now : Int) : CircuitBreaker :=
  let cb1 := { cb with failureCount := cb.failureCount + 1, lastFailureTime := now }
  if cb1.state = CircuitState.HALF_OPEN then { cb1 with state := CircuitState.OPEN }
  else if cb1.failureThreshold ≤ cb1.failureCount then { cb1 with state := CircuitState.OPEN }
  else cb1

/-- Embedding of `CircuitBreaker.execute` at time `now`, with the
wrapped operation's outcome supplied as `outcome` (it is only consulted
when the source actually invokes the operation): transition
`OPEN -> HALF_OPEN` when the reset timeout has elapsed, then reject if
still `OPEN`, otherwise run the operation and record its outcome. -/
def CircuitBreaker.execute (cb : CircuitBreaker) (now : Int) (outcome : Except JsError α) :
    Except CBError α × CircuitBreaker :=
  let cb1 :=
    if cb.state = CircuitState.OPEN ∧ cb.resetTimeout ≤ now - cb.lastFailureTime then
      { cb with state := CircuitState.HALF_OPEN, successCount := 0 }
    else cb
  if cb1.state = CircuitState.OPEN then
    (Except.error CBError.circuitOpen, cb1)
  else
    match outcome with
    | Except.ok v => (Except.ok v, cb1.onSuccess)
    | Except.error e => (Except.error (CBError.opFailed e), cb1.onFailure now)

/-! ### Association-list lemmas for the JS `Map` model -/

theorem lookup_map_replace (l : List (String × β)) (k : String) (v : β) :
    List.lookup k (l.map (fun p => if p.1 == k then (k, v) else p))
      = (List.lookup k l).map (fun _ => v) := by
  induction l with
  | nil => rfl
  | cons p rest ih =>
    obtain ⟨k1, v1⟩ := p
    by_cases h : k1 = k
    · subst h
      simp [List.lookup_cons]
    · have hb2 : (k == k1) = false := by simpa using Ne.symm h
      simpa [List.lookup_cons, h, hb2] using ih

theorem lookup_map_replace_ne (l : List (String × β)) (k k2 : String) (v : β)
    (h : ¬ k2 = k) :
    List.lookup k2 (l.map (fun p => if p.1 == k then (k, v) else p))
      = List.lookup k2 l := by
  induction l with
  | nil => rfl
  | cons p rest ih =>
    obtain ⟨k1, v1⟩ := p
    by_cases h1 : k1 = k
    · subst h1
      have hb : (k2 == k1) = false := by simpa using h
      simpa [List.lookup_cons, hb] using ih
    · by_cases h2 : k2 = k1
      · subst h2
        simp [List.lookup_cons, h1]
      · have hb2 : (k2 == k1) = false := by simpa using h2
        simpa [List.lookup_cons, h1, hb2] using ih

theorem any_beq_eq_lookup_isSome (l : List (String × β)) (k : String) :
    l.any (fun p => p.1 == k) = (List.lookup k l).isSome := by
  induction l with
  | nil => rfl
  | cons p rest ih =>
    obtain ⟨k1, v1⟩ := p
    by_cases h : k1 = k
    · subst h
      simp [List.lookup_cons]
    · have hb1 : (k1 == k) = false := by simpa using h
      have hb2 : (k == k1) = false := by simpa using Ne.symm h
      simpa [List.lookup_cons, hb1, hb2] using ih

theorem lookup_mapSet_self (l : List (String × β)) (k : String) (v : β) :
    List.lookup k (mapSet l k v) = some v := by
  unfold mapSet
  by_cases h : l.any (fun p => p.1 == k) = true
  · rw [if_pos h, lookup_map_replace]
    have hs : (List.lookup k l).isSome := by
      rw [← any_beq_eq_lookup_isSome]
      exact h
    obtain ⟨b, hb⟩ := Option.isSome_iff_exists.mp hs
    rw [hb]
    rfl
  · rw [if_neg h, List.lookup_append]
    have hnone : List.lookup k l = none := by
      rw [← Option.not_isSome_iff_eq_none, ← any_beq_eq_lookup_isSome]
      simpa using h
    simp [hnone, List.lookup_cons]

theorem lookup_mapSet_ne (l : List (String × β)) (k k2 : String) (v : β)
    (h : ¬ k2 = k) :
    List.lookup k2 (mapSet l k v) = List.lookup k2 l := by
  unfold mapSet
  by_cases ha : l.any (fun p => p.1 == k) = true
  · rw [if_pos ha]
    exact lookup_map_replace_ne l k k2 v h
  · rw [if_neg ha, List.lookup_append]
    have hb : (k2 == k) = false := by simpa using h
    simp [List.lookup_cons, hb]

theorem lookup_mapDelete_self (l : List (String × β)) (k : String) :
    List.lookup k (mapDelete l k) = none := by
  rw [List.lookup_eq_none_iff]
  intro p hp
  rw [mapDelete, List.mem_filter] at hp
  have h2 : ¬ p.1 = k := by simpa using hp.2
  simp only [bne_iff_ne, ne_eq]
  exact fun hc => h2 hc.symm

theorem lookup_mapDelete_ne (l : List (String × β)) (k k2 : String)
    (h : ¬ k2 = k) :
    List.lookup k2 (mapDelete l k) = List.lookup k2 l := by
  induction l with
  | nil => rfl
  | cons p rest ih =>
    obtain ⟨k1, v1⟩ := p
    by_cases h1 : k1 = k
    · subst h1
      have hb : (k2 == k1) = false := by simpa using h
      simpa [mapDelete, List.filter_cons, List.lookup_cons, hb] using ih
    · have hb1 : (k1 == k) = false := by simpa using h1
      by_cases h2 : k2 = k1
      · subst h2
        simp [mapDelete, List.filter_cons, hb1, List.lookup_cons]
      · have hb2 : (k2 == k1) = false := by simpa using h2
        simpa [mapDelete, List.filter_cons, hb1, List.lookup_cons, hb2] using ih

theorem mapDelete_eq_self_of_none (l : List (String × β)) (k : String)
    (h : List.lookup k l = none) : mapDelete l k = l := by
  rw [List.lookup_eq_none_iff] at h
  rw [mapDelete, List.filter_eq_self]
  intro p hp
  have h1 : ¬ k = p.1 := by simpa using h p hp
  simp [Ne.symm h1]

theorem lookup_of_mem_nodup (l : List (String × β)) (p : String × β)
    (hnodup : (l.map Prod.fst).Nodup) (hp : p ∈ l) :
    List.lookup p.1 l = some p.2 := by
  obtain ⟨pk, pv⟩ := p
  induction l with
  | nil => cases hp
  | cons q rest ih =>
    rw [List.map_cons, List.nodup_cons] at hnodup
    rcases List.mem_cons.mp hp with h | h
    · subst h
      simp
    · have hne : ¬ pk = q.1 := by
        intro hc
        exact hnodup.1 (hc ▸ List.mem_map_of_mem Prod.fst h)
      have hb : (pk == q.1) = false := by simpa using hne
      obtain ⟨qk, qv⟩ := q
      rw [List.lookup_cons, hb]
      exact ih hnodup.2 h

/-! ### Claims about the TTL cache (`SimpleCache`) -/

/-- C6 (amended): `SimpleCache.set` stores the value with
`expiresAt = now + ttl * 1000` when a nonzero `ttlSeconds` is supplied
and `expiresAt = now + defaultTTL * 1000` when it is omitted or `0`
(the source computes `ttl || defaultTTL`, and `0` is falsy); it
overwrites any existing entry for the key while leaving every other key
unchanged. -/
theorem simpleCache_set_expiry (c : SimpleCache α) (now : Nat) (k : String) (v : α)
    (ttl : Option Nat) (k2 : String) (hne : ¬ k2 = k) :
    List.lookup k (c.set now k v ttl).cache
        = some ⟨v, now + (match ttl with
            | some t => if t = 0 then c.defaultTTL else t
            | none => c.defaultTTL) * 1000⟩
      ∧ List.lookup k2 (c.set now k v ttl).cache = List.lookup k2 c.cache
      ∧ (c.set now k v ttl).defaultTTL = c.defaultTTL := by
  refine ⟨?_, ?_, rfl⟩
  · show List.lookup k (mapSet c.cache k _) = _
    rw [lookup_mapSet_self]
    rfl
  · exact lookup_mapSet_ne c.cache k k2 _ hne

/-- C6 witness: a concrete instantiation of `simpleCache_set_expiry`. -/
theorem simpleCache_set_expiry_witness :
    List.lookup "a" ((SimpleCache.set ⟨[], 300⟩ 10 "a" (7 : Nat) (some 5)).cache)
        = some ⟨7, 10 + (match some 5 with
            | some t => if t = 0 then 300 else t
            | none => 300) * 1000⟩
      ∧ List.lookup "b" ((SimpleCache.set ⟨[], 300⟩ 10 "a" (7 : Nat) (some 5)).cache)
          = List.lookup "b" ([] : List (String × CacheEntry Nat))
      ∧ (SimpleCache.set ⟨[], 300⟩ 10 "a" (7 : Nat) (some 5)).defaultTTL = 300 :=
  simpleCache_set_expiry ⟨[], 300⟩ 10 "a" 7 (some 5) "b" (by decide)

/-- C6 counterexample: with a supplied `ttlSeconds = 0` the stored
expiry is `now + defaultTTL * 1000` (here `300000`), not
`now + 0 * 1000 = 0` as the claim requires for every supplied value
including `0`. -/
theorem simpleCache_set_zero_ttl_counterexample :
    List.lookup "a" ((SimpleCache.set ⟨[], 300⟩ 0 "a" (1 : Nat) (some 0)).cache)
        = some ⟨1, 300000⟩
      ∧ (300000 : Nat) ≠ 0 + 0 * 1000 := by
  decide

/-- C2 (amended): for `ttl > 0`, a value stored by `set` is returned by
`get` at every `now ≤ expiresAt` — including the exact instant
`now = expiresAt`, since the source expires only on `now > expiresAt` —
and is absent at every `now > expiresAt`. -/
theorem simpleCache_ttl_get (c : SimpleCache α) (now0 ttl : Nat) (k : String) (v : α)
    (httl : 0 < ttl) :
    (∀ now, now ≤ now0 + ttl * 1000 →
      ((c.set now0 k v (some ttl)).get now k).1 = some v)
  ∧ (∀ now, now0 + ttl * 1000 < now →
      ((c.set now0 k v (some ttl)).get now k).1 = none) := by
  have hl : List.lookup k (c.set now0 k v (some ttl)).cache
      = some ⟨v, now0 + ttl * 1000⟩ := by
    show List.lookup k (mapSet c.cache k _) = _
    rw [lookup_mapSet_self]
    have : jsOrDefault (some ttl) c.defaultTTL = ttl := by
      simp [jsOrDefault, Nat.pos_iff_ne_zero.mp httl]
    rw [this]
  constructor
  · intro now hle
    simp [SimpleCache.get, hl, Nat.not_lt.mpr hle]
  · intro now hgt
    simp [SimpleCache.get, hl, hgt]

/-- C2 witness: concrete instantiations of both branches of
`simpleCache_ttl_get` (`ttl = 5` s, so `expiresAt = 5000` ms). -/
theorem simpleCache_ttl_get_witness :
    ((SimpleCache.set ⟨[], 300⟩ 0 "a" (1 : Nat) (some 5)).get 5000 "a").1 = some 1
  ∧ ((SimpleCache.set ⟨[], 300⟩ 0 "a" (1 : Nat) (some 5)).get 5001 "a").1 = none :=
  ⟨(simpleCache_ttl_get ⟨[], 300⟩ 0 5 "a" 1 (by decide)).1 5000 (by decide),
   (simpleCache_ttl_get ⟨[], 300⟩ 0 5 "a" 1 (by decide)).2 5001 (by decide)⟩

/-- C2 counterexample: at the exact instant `now = expiresAt` (here
`5000 ≥ 0 + 5 * 1000`), `get` still returns the stored value, whereas
the claim requires absence at every `now ≥ expiresAt`. -/
theorem simpleCache_get_at_expiry_counterexample :
    ((SimpleCache.set ⟨[], 300⟩ 0 "a" (1 : Nat) (some 5)).get 5000 "a").1 = some 1
      ∧ 0 + 5 * 1000 ≤ (5000 : Nat) := by
  decide

theorem cleanupLoop_eq (now : Nat) (l : List (String × CacheEntry α)) :
    cleanupLoop now l
      = ((l.filter fun p => decide (p.2.expiresAt < now)).length,
         l.filter fun p => !(decide (p.2.expiresAt < now))) := by
  induction l with
  | nil => rfl
  | cons p rest ih =>
    by_cases h : p.2.expiresAt < now
    · simp [cleanupLoop, List.filter_cons, h, ih]
    · simp [cleanupLoop, List.filter_cons, h, ih]

/-- C9: `cleanup` removes exactly the entries with `expiresAt < now`
(the kept entries are exactly those with `expiresAt ≥ now`, in order),
returns the number of removed entries, and `get` on any removed key
afterwards returns `none`.  Keys are unique in a JS `Map`, hence the
`Nodup` hypothesis on the key list. -/
theorem simpleCache_cleanup_exact (c : SimpleCache α) (now : Nat)
    (hnodup : (c.cache.map Prod.fst).Nodup) :
    (c.cleanup now).2.cache = c.cache.filter (fun p => !(decide (p.2.expiresAt < now)))
  ∧ (c.cleanup now).1 = (c.cache.filter (fun p => decide (p.2.expiresAt < now))).length
  ∧ ∀ k e, List.lookup k c.cache = some e → e.expiresAt < now →
      ((c.cleanup now).2.get now k).1 = none := by
  refine ⟨by simp [SimpleCache.cleanup, cleanupLoop_eq], by simp [SimpleCache.cleanup, cleanupLoop_eq], ?_⟩
  intro k e hmem hexp
  have hcache : (c.cleanup now).2.cache
      = c.cache.filter (fun p => !(decide (p.2.expiresAt < now))) := by
    simp [SimpleCache.cleanup, cleanupLoop_eq]
  have hnone : List.lookup k (c.cleanup now).2.cache = none := by
    rw [hcache, List.lookup_eq_none_iff]
    intro p hp
    rw [List.mem_filter] at hp
    simp only [bne_iff_ne, ne_eq]
    intro hc
    have hpl : List.lookup p.1 c.cache = some p.2 := lookup_of_mem_nodup c.cache p hnodup hp.1
    rw [← hc, hmem] at hpl
    have hpe : e = p.2 := by injection hpl
    have := hp.2
    rw [← hpe] at this
    simp [hexp] at this
  simp [SimpleCache.get, hnone]

/-- C9 witness: a concrete three-entry cache at `now = 200`; the two
expired entries are removed and counted, and `get` on a removed key
returns `none`. -/
theorem simpleCache_cleanup_exact_witness :
    (SimpleCache.cleanup ⟨[("a", ⟨1, 100⟩), ("b", ⟨2, 5000⟩), ("c", ⟨3, 50⟩)], 300⟩ 200).2.cache
        = List.filter (fun p => !(decide (p.2.expiresAt < 200)))
            [("a", ⟨1, 100⟩), ("b", ⟨2, 5000⟩), ("c", (⟨3, 50⟩ : CacheEntry Nat))]
  ∧ (SimpleCache.cleanup ⟨[("a", ⟨1, 100⟩), ("b", ⟨2, 5000⟩), ("c", ⟨3, 50⟩)], 300⟩ 200).1
        = (List.filter (fun p => decide (p.2.expiresAt < 200))
            [("a", ⟨1, 100⟩), ("b", ⟨2, 5000⟩), ("c", (⟨3, 50⟩ : CacheEntry Nat))]).length
  ∧ ((SimpleCache.cleanup ⟨[("a", ⟨1, 100⟩), ("b", ⟨2, 5000⟩), ("c", ⟨3, 50⟩)], 300⟩ 200).2.get
        200 "a").1 = none := by
  have h := simpleCache_cleanup_exact
    (⟨[("a", ⟨1, 100⟩), ("b", ⟨2, 5000⟩), ("c", ⟨3, 50⟩)], 300⟩ : SimpleCache Nat) 200 (by decide)
  exact ⟨h.1, h.2.1, h.2.2 "a" ⟨1, 100⟩ (by decide) (by decide)⟩

/-- C10: on an entry that is physically present but logically expired
(`expiresAt < now`), `delete` returns `true` (physical presence decides
the result) while `get` returns `none` and `has` returns `false` at the
same instant. -/
theorem simpleCache_delete_expired (c : SimpleCache α) (now : Nat) (k : String)
    (e : CacheEntry α) (hmem : List.lookup k c.cache = some e)
    (hexp : e.expiresAt < now) :
    (c.delete k).1 = true ∧ (c.get now k).1 = none ∧ (c.hasOp now k).1 = false := by
  refine ⟨?_, ?_, ?_⟩
  · show c.cache.any _ = true
    rw [any_beq_eq_lookup_isSome, hmem]
    rfl
  · simp [SimpleCache.get, hmem, hexp]
  · simp [SimpleCache.hasOp, SimpleCache.get, hmem, hexp]

/-- C10 witness: a cache holding `"a"` expired at `100`, observed at
`now = 200`. -/
theorem simpleCache_delete_expired_witness :
    ((⟨[("a", ⟨1, 100⟩)], 300⟩ : SimpleCache Nat).delete "a").1 = true
  ∧ ((⟨[("a", ⟨1, 100⟩)], 300⟩ : SimpleCache Nat).get 200 "a").1 = none
  ∧ ((⟨[("a", ⟨1, 100⟩)], 300⟩ : SimpleCache Nat).hasOp 200 "a").1 = false :=
  simpleCache_delete_expired ⟨[("a", ⟨1, 100⟩)], 300⟩ 200 "a" ⟨1, 100⟩ (by decide) (by decide)

/-! ### Claims about the circuit breaker -/

/-- C3: whenever `execute` is entered with `state = OPEN` and
`now - lastFailureTime < resetTimeout`, the call is rejected with the
circuit-open error and the breaker state is returned unchanged; the
outcome parameter is universally quantified, so the result is
independent of the wrapped operation — it is never invoked. -/
theorem circuitBreaker_open_rejects (cb : CircuitBreaker) (now : Int)
    (outcome : Except JsError α)
    (hOpen : cb.state = CircuitState.OPEN)
    (hTime : now - cb.lastFailureTime < cb.resetTimeout) :
    (cb.execute now outcome).1 = Except.error CBError.circuitOpen
      ∧ (cb.execute now outcome).2 = cb := by
  have h2 : ¬ cb.resetTimeout ≤ now - cb.lastFailureTime := Int.not_le.mpr hTime
  constructor
  · simp [CircuitBreaker.execute, hOpen, h2]
  · simp [CircuitBreaker.execute, hOpen, h2]

/-- C3 witness: an `OPEN` breaker (`lastFailureTime = 0`,
`resetTimeout = 60000`) called at `now = 100` with a succeeding
operation outcome. -/
theorem circuitBreaker_open_rejects_witness :
    ((⟨CircuitState.OPEN, 3, 0, 0, 5, 60000, 10000⟩ : CircuitBreaker).execute 100
        (Except.ok (7 : Nat))).1 = Except.error CBError.circuitOpen
      ∧ ((⟨CircuitState.OPEN, 3, 0, 0, 5, 60000, 10000⟩ : CircuitBreaker).execute 100
        (Except.ok (7 : Nat))).2 = ⟨CircuitState.OPEN, 3, 0, 0, 5, 60000, 10000⟩ :=
  circuitBreaker_open_rejects ⟨CircuitState.OPEN, 3, 0, 0, 5, 60000, 10000⟩ 100
    (Except.ok 7) (by decide) (by decide)

/-- C4: for an `OPEN` breaker with `resetTimeout ≤ now - lastFailureTime`,
`execute` transitions to `HALF_OPEN` with `successCount` reset and does
invoke the operation (a success propagates its value and leaves the
breaker `HALF_OPEN` with `successCount = 1`; a second success closes the
circuit), while a failure during the trial re-raises the operation's
error and reopens the circuit. -/
theorem circuitBreaker_halfOpen_recovery (cb : CircuitBreaker) (now now2 : Int)
    (a b : α) (e : JsError)
    (hOpen : cb.state = CircuitState.OPEN)
    (hTime : cb.resetTimeout ≤ now - cb.lastFailureTime) :
    (cb.execute now (Except.ok a)).1 = Except.ok a
  ∧ (cb.execute now (Except.ok a)).2.state = CircuitState.HALF_OPEN
  ∧ (cb.execute now (Except.ok a)).2.successCount = 1
  ∧ ((cb.execute now (Except.ok a)).2.execute now2 (Except.ok b)).2.state = CircuitState.CLOSED
  ∧ (cb.execute now (Except.error e : Except JsError α)).1 = Except.error (CBError.opFailed e)
  ∧ (cb.execute now (Except.error e : Except JsError α)).2.state = CircuitState.OPEN := by
  have h1 : cb.state = CircuitState.OPEN ∧ cb.resetTimeout ≤ now - cb.lastFailureTime :=
    ⟨hOpen, hTime⟩
  refine ⟨?_, ?_, ?_, ?_, ?_, ?_⟩ <;>
    simp [CircuitBreaker.execute, CircuitBreaker.onSuccess, CircuitBreaker.onFailure, h1]

/-- C4 witness: a breaker opened at time `0` with `resetTimeout = 60000`,
probed at `now = 60000` and again at `now2 = 60001`. -/
theorem circuitBreaker_halfOpen_recovery_witness :
    ((⟨CircuitState.OPEN, 5, 0, 4, 5, 60000, 10000⟩ : CircuitBreaker).execute 60000
        (Except.ok (1 : Nat))).1 = Except.ok 1
  ∧ ((⟨CircuitState.OPEN, 5, 0, 4, 5, 60000, 10000⟩ : CircuitBreaker).execute 60000
        (Except.ok (1 : Nat))).2.state = CircuitState.HALF_OPEN
  ∧ ((⟨CircuitState.OPEN, 5, 0, 4, 5, 60000, 10000⟩ : CircuitBreaker).execute 60000
        (Except.ok (1 : Nat))).2.successCount = 1
  ∧ (((⟨CircuitState.OPEN, 5, 0, 4, 5, 60000, 10000⟩ : CircuitBreaker).execute 60000
        (Except.ok (1 : Nat))).2.execute 60001 (Except.ok 2)).2.state = CircuitState.CLOSED
  ∧ ((⟨CircuitState.OPEN, 5, 0, 4, 5, 60000, 10000⟩ : CircuitBreaker).execute 60000
        (Except.error ⟨none, "boom"⟩ : Except JsError Nat)).1
        = Except.error (CBError.opFailed ⟨none, "boom"⟩)
  ∧ ((⟨CircuitState.OPEN, 5, 0, 4, 5, 60000, 10000⟩ : CircuitBreaker).execute 60000
        (Except.error ⟨none, "boom"⟩ : Except JsError Nat)).2.state = CircuitState.OPEN :=
  circuitBreaker_halfOpen_recovery ⟨CircuitState.OPEN, 5, 0, 4, 5, 60000, 10000⟩ 60000 60001
    1 2 ⟨none, "boom"⟩ (by decide) (by decide)

/-! ### Claims about the retry executor -/

/-- C7: if every invocation of the operation fails with a non-retryable
error, then with `maxAttempts ≥ 1` the operation is invoked exactly once
and `withRetry` rejects with the very error of that first invocation. -/
theorem withRetry_nonretryable_single_invocation (fn : Nat → Except JsError α)
    (cfg : RetryConfig) (e : JsError)
    (hmax : 1 ≤ cfg.maxAttempts)
    (hall : ∀ j, 1 ≤ j → ∃ err, fn j = Except.error err
        ∧ isRetryableError err cfg.retryableErrors = false)
    (h1 : fn 1 = Except.error e) :
    (withRetry fn cfg).calls = 1
      ∧ (withRetry fn cfg).result = Except.error (some e) := by
  obtain ⟨err, heq, hret⟩ := hall 1 le_rfl
  rw [h1] at heq
  injection heq with h
  subst h
  obtain ⟨m, hm⟩ : ∃ m, cfg.maxAttempts = m + 1 := ⟨cfg.maxAttempts - 1, by omega⟩
  show (withRetryLoop fn cfg.retryableErrors cfg.backoffFactor cfg.maxDelay
      cfg.maxAttempts 1 cfg.initialDelay none).calls = 1
    ∧ (withRetryLoop fn cfg.retryableErrors cfg.backoffFactor cfg.maxDelay
      cfg.maxAttempts 1 cfg.initialDelay none).result = Except.error (some e)
  rw [hm]
  cases m with
  | zero => refine ⟨?_, ?_⟩ <;> simp [withRetryLoop, h1]
  | succ m2 => refine ⟨?_, ?_⟩ <;> simp [withRetryLoop, h1, hret]

/-- C7 witness: an operation that always fails with code `"EBADF"`
(neither a listed code nor a substring of the message) under the default
configuration. -/
theorem withRetry_nonretryable_single_invocation_witness :
    (withRetry (fun _ => (Except.error ⟨some "EBADF", "bad file"⟩ : Except JsError Nat))
        DEFAULT_CONFIG).calls = 1
      ∧ (withRetry (fun _ => (Except.error ⟨some "EBADF", "bad file"⟩ : Except JsError Nat))
        DEFAULT_CONFIG).result = Except.error (some ⟨some "EBADF", "bad file"⟩) :=
  withRetry_nonretryable_single_invocation
    (fun _ => Except.error ⟨some "EBADF", "bad file"⟩) DEFAULT_CONFIG
    ⟨some "EBADF", "bad file"⟩ (by decide)
    (fun j _ => ⟨⟨some "EBADF", "bad file"⟩, rfl, by decide⟩) rfl

theorem withRetryLoop_delays_iterate (fn : Nat → Except JsError α) (re : List String)
    (b M : Nat) :
    ∀ (rem attempt d : Nat) (le : Option JsError),
      ∃ n, (withRetryLoop fn re b M rem attempt d le).delays
        = (List.range n).map (fun j => (nextDelay b M)^[j] d) := by
  intro rem
  induction rem with
  | zero => intro attempt d le; exact ⟨0, rfl⟩
  | succ m ih =>
    intro attempt d le
    cases hfn : fn attempt with
    | ok v => exact ⟨0, by simp [withRetryLoop, hfn]⟩
    | error e =>
      by_cases hm : m = 0
      · exact ⟨0, by simp [withRetryLoop, hfn, hm]⟩
      · by_cases hr : isRetryableError e re = true
        · obtain ⟨n, hn⟩ := ih (attempt + 1) (min (d * b) M) (some e)
          refine ⟨n + 1, ?_⟩
          have hstep : (withRetryLoop fn re b M (m + 1) attempt d le).delays
              = d :: (withRetryLoop fn re b M m (attempt + 1)
                  (min (d * b) M) (some e)).delays := by
            simp [withRetryLoop, hfn, hm, hr]
          rw [hstep, hn, List.range_succ_eq_map, List.map_cons, List.map_map]
          simp [Function.comp_def, Function.iterate_succ_apply, nextDelay]
        · have hr2 : isRetryableError e re = false := by
            cases hx : isRetryableError e re
            · rfl
            · exact absurd hx hr
          exact ⟨0, by simp [withRetryLoop, hfn, hm, hr2]⟩

theorem iterate_nextDelay_eq (b M i : Nat) :
    ∀ k, 1 ≤ k → (nextDelay b M)^[k] i = min (i * b ^ k) M := by
  intro k
  induction k with
  | zero => intro h; omega
  | succ n ih =>
    intro _
    by_cases hn : n = 0
    · subst hn
      simp [nextDelay]
    · have h1 : 1 ≤ n := by omega
      rw [Function.iterate_succ_apply', ih h1]
      show nextDelay b M (min (i * b ^ n) M) = min (i * b ^ (n + 1)) M
      unfold nextDelay
      by_cases hle : i * b ^ n ≤ M
      · rw [Nat.min_eq_left hle, pow_succ, ← mul_assoc]
      · push_neg at hle
        rw [Nat.min_eq_right (le_of_lt hle)]
        have hb : 1 ≤ b := by
          by_contra hb0
          have hbz : b = 0 := by omega
          subst hbz
          rw [zero_pow hn, Nat.mul_zero] at hle
          exact absurd hle (Nat.not_lt_zero M)
        have h2 : M ≤ M * b := Nat.le_mul_of_pos_right M (by omega)
        rw [Nat.min_eq_right h2]
        have h3 : M ≤ i * b ^ (n + 1) :=
          le_trans (le_of_lt hle)
            (Nat.mul_le_mul_left i (Nat.pow_le_pow_right hb (by omega)))
        rw [Nat.min_eq_right h3]

/-- C1 (amended): in every `withRetry` run, the delay waited after the
k-th retryable failure equals `min (initialDelay * backoffFactor ^ (k-1))
maxDelay` for `k ≥ 2`, but for `k = 1` it is the *unclamped*
`initialDelay` (the source waits the current `delay` first and clamps
only when computing the next one). -/
theorem withRetry_delay_formula (fn : Nat → Except JsError α) (cfg : RetryConfig)
    (k d : Nat) (hk : 1 ≤ k)
    (hd : ((withRetry fn cfg).delays)[k - 1]? = some d) :
    d = if k = 1 then cfg.initialDelay
        else min (cfg.initialDelay * cfg.backoffFactor ^ (k - 1)) cfg.maxDelay := by
  obtain ⟨n, hn⟩ := withRetryLoop_delays_iterate fn cfg.retryableErrors cfg.backoffFactor
    cfg.maxDelay cfg.maxAttempts 1 cfg.initialDelay none
  have hd2 : ((withRetryLoop fn cfg.retryableErrors cfg.backoffFactor cfg.maxDelay
      cfg.maxAttempts 1 cfg.initialDelay none).delays)[k - 1]? = some d := hd
  rw [hn, List.getElem?_map] at hd2
  have hlt : k - 1 < n := by
    by_contra hge
    rw [List.getElem?_eq_none (by simpa using hge)] at hd2
    cases hd2
  rw [List.getElem?_range hlt] at hd2
  have hd3 : d = (nextDelay cfg.backoffFactor cfg.maxDelay)^[k - 1] cfg.initialDelay := by
    injection hd2 with h
    exact h.symm
  by_cases hk1 : k = 1
  · subst hk1
    rw [if_pos rfl, hd3]
    rfl
  · rw [if_neg hk1, hd3, iterate_nextDelay_eq _ _ _ _ (by omega)]

/-- C1 witness: under the default configuration (initialDelay 1000 ms,
factor 2, cap 30000 ms) the second delay of an always-retryable failing
run is `2000 = min (1000 * 2 ^ 1) 30000`. -/
theorem withRetry_delay_formula_witness :
    ((withRetry (fun _ => (Except.error ⟨some "ETIMEDOUT", "timed out"⟩ : Except JsError Nat))
        DEFAULT_CONFIG).delays)[2 - 1]? = some 2000
      ∧ (2000 : Nat) = if 2 = 1 then DEFAULT_CONFIG.initialDelay
          else min (DEFAULT_CONFIG.initialDelay * DEFAULT_CONFIG.backoffFactor ^ (2 - 1))
            DEFAULT_CONFIG.maxDelay :=
  ⟨by decide,
   withRetry_delay_formula
     (fun _ => (Except.error ⟨some "ETIMEDOUT", "timed out"⟩ : Except JsError Nat))
     DEFAULT_CONFIG 2 2000 (by decide) (by decide)⟩

/-- C1 counterexample: with `initialDelay = 40000 > maxDelay = 30000`,
the delay waited after the first retryable failure is the unclamped
`40000`, not `min (initialDelay * backoffFactor ^ 0) maxDelay = 30000`
as the claim requires for `k = 1`. -/
theorem withRetry_first_delay_counterexample :
    ((withRetry (fun _ => (Except.error ⟨some "ETIMEDOUT", "timed out"⟩ : Except JsError Nat))
        ⟨2, 40000, 30000, 2, ["ETIMEDOUT"]⟩).delays)[1 - 1]? = some 40000
      ∧ (40000 : Nat) ≠ min (40000 * 2 ^ (1 - 1)) 30000 := by
  decide

/-! ### Lemmas about the LRU cache -/

theorem mapDelete_length_lt (l : List (String × β)) (k : String)
    (h : (List.lookup k l).isSome) : (mapDelete l k).length < l.length := by
  induction l with
  | nil => cases h
  | cons p rest ih =>
    obtain ⟨k1, v1⟩ := p
    by_cases hk : k = k1
    · subst hk
      have hb : (k == k) = true := by simp
      calc (mapDelete ((k, v1) :: rest) k).length
          = (mapDelete rest k).length := by simp [mapDelete, List.filter_cons]
        _ ≤ rest.length := List.length_filter_le _ _
        _ < ((k, v1) :: rest).length := by simp
    · have hb1 : (k1 == k) = false := by simpa using Ne.symm hk
      have hb2 : (k == k1) = false := by simpa using hk
      have hrest : (List.lookup k rest).isSome := by
        rw [List.lookup_cons, hb2] at h
        exact h
      have := ih hrest
      have hstep : mapDelete ((k1, v1) :: rest) k = (k1, v1) :: mapDelete rest k := by
        simp [mapDelete, List.filter_cons, hb1]
      rw [hstep, List.length_cons, List.length_cons]
      omega

theorem mapDelete_length_add_one (l : List (String × β)) (k : String)
    (hnodup : (l.map Prod.fst).Nodup) (h : (List.lookup k l).isSome) :
    (mapDelete l k).length + 1 = l.length := by
  induction l with
  | nil => cases h
  | cons p rest ih =>
    obtain ⟨k1, v1⟩ := p
    rw [List.map_cons, List.nodup_cons] at hnodup
    by_cases hk : k = k1
    · subst hk
      have hnone : List.lookup k rest = none := by
        rw [List.lookup_eq_none_iff]
        intro q hq
        have : q.1 ∈ rest.map Prod.fst := List.mem_map_of_mem Prod.fst hq
        simpa [bne_iff_ne] using fun hc : k = q.1 => hnodup.1 (hc ▸ this)
      have hrest : mapDelete rest k = rest := mapDelete_eq_self_of_none rest k hnone
      have hstep : mapDelete ((k, v1) :: rest) k = mapDelete rest k := by
        simp [mapDelete, List.filter_cons]
      rw [hstep, hrest, List.length_cons]
    · have hb1 : (k1 == k) = false := by simpa using Ne.symm hk
      have hb2 : (k == k1) = false := by simpa using hk
      have hrest : (List.lookup k rest).isSome := by
        rw [List.lookup_cons, hb2] at h
        exact h
      have := ih hnodup.2 hrest
      have hstep : mapDelete ((k1, v1) :: rest) k = (k1, v1) :: mapDelete rest k := by
        simp [mapDelete, List.filter_cons, hb1]
      rw [hstep, List.length_cons, List.length_cons]
      omega

theorem LRUCache.step_maxSize (c : LRUCache α) (op : LRUOp α) :
    (c.step op).maxSize = c.maxSize := by
  cases op with
  | setOp now k v => rfl
  | getOp now k =>
    show ((c.get now k).2).maxSize = c.maxSize
    cases h : List.lookup k c.cache <;> simp [LRUCache.get, h]
  | hasQ k => rfl
  | delOp k => rfl
  | clearOp => rfl

theorem LRUCache.step_length (c : LRUCache α) (op : LRUOp α) (hms : 1 ≤ c.maxSize)
    (h : c.cache.length ≤ c.maxSize) : (c.step op).cache.length ≤ c.maxSize := by
  cases op with
  | setOp now k v =>
    have hdel : (mapDelete c.cache k).length ≤ c.cache.length := List.length_filter_le _ _
    have key : ∀ l1 : List (String × LRUEntry α), l1.length ≤ c.cache.length →
        ((if c.maxSize ≤ l1.length then l1.tail else l1)
          ++ [(k, (⟨v, now⟩ : LRUEntry α))]).length ≤ c.maxSize := by
      intro l1 hle
      by_cases h2 : c.maxSize ≤ l1.length
      · rw [if_pos h2]
        simp only [List.length_append, List.length_tail, List.length_cons, List.length_nil]
        omega
      · rw [if_neg h2]
        simp only [List.length_append, List.length_cons, List.length_nil]
        omega
    exact key (if c.cache.any (fun p => p.1 == k) then mapDelete c.cache k else c.cache)
      (by split
          · exact hdel
          · exact le_rfl)
  | getOp now k =>
    show ((c.get now k).2).cache.length ≤ c.maxSize
    cases hl : List.lookup k c.cache with
    | none => simpa [LRUCache.get, hl] using h
    | some e =>
      have hlt : (mapDelete c.cache k).length < c.cache.length :=
        mapDelete_length_lt c.cache k (by rw [hl]; rfl)
      simp only [LRUCache.get, hl, List.length_append, List.length_cons, List.length_nil]
      omega
  | hasQ k => exact h
  | delOp k =>
    show (mapDelete c.cache k).length ≤ c.maxSize
    exact le_trans (List.length_filter_le _ _) h
  | clearOp =>
    show (List.length []) ≤ c.maxSize
    simp

theorem LRUCache.run_length (m : Nat) (hm : 1 ≤ m) (ops : List (LRUOp α)) :
    ((LRUCache.empty α m).run ops).cache.length ≤ m := by
  suffices hgen : ∀ (ops2 : List (LRUOp α)) (c : LRUCache α), c.maxSize = m →
      c.cache.length ≤ m → (c.run ops2).cache.length ≤ m by
    exact hgen ops (LRUCache.empty α m) rfl (by simp [LRUCache.empty])
  intro ops2
  induction ops2 with
  | nil => intro c _ hlen; exact hlen
  | cons op rest ih =>
    intro c hc hlen
    have h1 : (c.step op).maxSize = m := by rw [LRUCache.step_maxSize]; exact hc
    have h2 : (c.step op).cache.length ≤ m := by
      have := LRUCache.step_length c op (by rw [hc]; exact hm) (by rw [hc]; exact hlen)
      rw [hc] at this
      exact this
    exact ih (c.step op) h1 h2

theorem LRUCache.setList_fresh (now : Nat) (f : String → α) :
    ∀ (ks : List String) (c : LRUCache α), ks.Nodup →
      (∀ k ∈ ks, List.lookup k c.cache = none) →
      c.cache.length + ks.length ≤ c.maxSize →
      (c.setList now ks f).cache
          = c.cache ++ ks.map (fun k => (k, (⟨f k, now⟩ : LRUEntry α)))
        ∧ (c.setList now ks f).maxSize = c.maxSize := by
  intro ks
  induction ks with
  | nil =>
    intro c _ _ _
    exact ⟨by simp [LRUCache.setList], rfl⟩
  | cons k rest ih =>
    intro c hnd hfresh hcap
    rw [List.nodup_cons] at hnd
    have hk : List.lookup k c.cache = none := hfresh k (List.mem_cons_self k rest)
    have hany : (c.cache.any fun p => p.1 == k) = false := by
      rw [any_beq_eq_lookup_isSome, hk]
      rfl
    have hlt : ¬ c.maxSize ≤ c.cache.length := by
      rw [List.length_cons] at hcap
      omega
    have hstep : (c.set now k (f k)).cache
        = c.cache ++ [(k, (⟨f k, now⟩ : LRUEntry α))] := by
      simp [LRUCache.set, hany, hlt]
    have hms : (c.set now k (f k)).maxSize = c.maxSize := rfl
    have hfresh2 : ∀ k2 ∈ rest, List.lookup k2 (c.set now k (f k)).cache = none := by
      intro k2 hk2
      rw [hstep, List.lookup_append, hfresh k2 (List.mem_cons_of_mem k hk2)]
      have hne : (k2 == k) = false := by
        simpa using fun hc : k2 = k => hnd.1 (hc ▸ hk2)
      simp [List.lookup_cons, hne]
    have hcap2 : (c.set now k (f k)).cache.length + rest.length
        ≤ (c.set now k (f k)).maxSize := by
      rw [hstep, hms, List.length_append]
      rw [List.length_cons] at hcap
      simp only [List.length_cons, List.length_nil]
      omega
    obtain ⟨ih1, ih2⟩ := ih (c.set now k (f k)) hnd.2 hfresh2 hcap2
    constructor
    · show ((c.set now k (f k)).setList now rest f).cache = _
      rw [ih1, hstep, List.map_cons, List.append_assoc]
      rfl
    · show ((c.set now k (f k)).setList now rest f).maxSize = c.maxSize
      rw [ih2, hms]

/-- C5 (amended): for every `LRUCache` with `maxSize = m ≥ 1` (with
`maxSize = 0` the source still inserts, see the counterexample), the
size never exceeds `maxSize` over any operation sequence from a fresh
cache, and `m + 1` sequential `set` calls on distinct keys with no
intervening `get` leave the first-inserted key absent and the remaining
`m` keys present (the victim is the entry at the oldest insertion-order
position). -/
theorem lruCache_size_bound_and_fifo_eviction (m : Nat) (ops : List (LRUOp α))
    (now : Nat) (init : List String) (klast : String) (f : String → α)
    (hm : 1 ≤ m) (hlen : init.length = m) (hnodup : (init ++ [klast]).Nodup) :
    ((LRUCache.empty α m).run ops).size ≤ m
  ∧ (∀ h0, init.head? = some h0 →
      (((LRUCache.empty α m).setList now (init ++ [klast]) f).hasOp h0).1 = false)
  ∧ (∀ k2 ∈ init.tail,
      (((LRUCache.empty α m).setList now (init ++ [klast]) f).hasOp k2).1 = true)
  ∧ (((LRUCache.empty α m).setList now (init ++ [klast]) f).hasOp klast).1 = true := by
  rw [List.nodup_append] at hnodup
  have hinit : init.Nodup := hnodup.1
  have hkl : klast ∉ init := fun hc => hnodup.2.2 hc (by simp)
  have hsplit : (LRUCache.empty α m).setList now (init ++ [klast]) f
      = ((LRUCache.empty α m).setList now init f).set now klast (f klast) := by
    show List.foldl _ _ (init ++ [klast]) = _
    rw [List.foldl_append]
    rfl
  obtain ⟨h1c0, h1m⟩ := LRUCache.setList_fresh now f init (LRUCache.empty α m) hinit
    (fun k _ => rfl) (by simp [LRUCache.empty, hlen])
  have h1c : ((LRUCache.empty α m).setList now init f).cache
      = init.map (fun k => (k, (⟨f k, now⟩ : LRUEntry α))) := by
    rw [h1c0]
    rfl
  have hanyl : (((LRUCache.empty α m).setList now init f).cache.any
      fun p => p.1 == klast) = false := by
    rw [h1c, any_beq_eq_lookup_isSome]
    have hnone : List.lookup klast (init.map fun k => (k, (⟨f k, now⟩ : LRUEntry α)))
        = none := by
      rw [List.lookup_eq_none_iff]
      intro p hp
      obtain ⟨k0, hk0, rfl⟩ := List.mem_map.mp hp
      simpa using fun hc : klast = k0 => hkl (hc ▸ hk0)
    rw [hnone]
    rfl
  cases init with
  | nil =>
    simp only [List.length_nil] at hlen
    omega
  | cons h0 t =>
    have hlen1 : ((LRUCache.empty α m).setList now (h0 :: t) f).cache.length = m := by
      rw [h1c, List.length_map]
      exact hlen
    have hcapb : ((LRUCache.empty α m).setList now (h0 :: t) f).maxSize
        ≤ ((LRUCache.empty α m).setList now (h0 :: t) f).cache.length := by
      rw [h1m, hlen1]
      exact le_rfl
    have hfinal : (((LRUCache.empty α m).setList now ((h0 :: t) ++ [klast]) f)).cache
        = (t.map (fun k => (k, (⟨f k, now⟩ : LRUEntry α))))
            ++ [(klast, (⟨f klast, now⟩ : LRUEntry α))] := by
      rw [hsplit]
      have hstep : (((LRUCache.empty α m).setList now (h0 :: t) f).set now klast (f klast)).cache
          = (((LRUCache.empty α m).setList now (h0 :: t) f).cache).tail
              ++ [(klast, (⟨f klast, now⟩ : LRUEntry α))] := by
        simp [LRUCache.set, hanyl, hcapb]
      rw [hstep, h1c, List.map_cons, List.tail_cons]
    have hkeys : ∀ p, p ∈ (((LRUCache.empty α m).setList now ((h0 :: t) ++ [klast]) f)).cache →
        p.1 ∈ t ∨ p.1 = klast := by
      intro p hp
      rw [hfinal] at hp
      rcases List.mem_append.mp hp with h | h
      · obtain ⟨k0, hk0, rfl⟩ := List.mem_map.mp h
        exact Or.inl hk0
      · rw [List.mem_singleton] at h
        subst h
        exact Or.inr rfl
    rw [List.nodup_cons] at hinit
    refine ⟨LRUCache.run_length m hm ops, ?_, ?_, ?_⟩
    · intro h0' hh0
      rw [List.head?_cons] at hh0
      injection hh0 with hh0
      subst hh0
      show (((LRUCache.empty α m).setList now ((h0 :: t) ++ [klast]) f)).cache.any _ = false
      rw [any_beq_eq_lookup_isSome]
      have hnone : List.lookup h0
          (((LRUCache.empty α m).setList now ((h0 :: t) ++ [klast]) f)).cache = none := by
        rw [List.lookup_eq_none_iff]
        intro p hp
        rcases hkeys p hp with h | h
        · simpa using fun hc : h0 = p.1 => hinit.1 (by rw [hc]; exact h)
        · simpa using fun hc : h0 = p.1 => hkl (by rw [← hc] at h; rw [← h]; exact List.mem_cons_self h0 t)
      rw [hnone]
      rfl
    · intro k2 hk2
      rw [List.tail_cons] at hk2
      show (((LRUCache.empty α m).setList now ((h0 :: t) ++ [klast]) f)).cache.any _ = true
      rw [hfinal, List.any_eq_true]
      refine ⟨(k2, (⟨f k2, now⟩ : LRUEntry α)), ?_, by simp⟩
      exact List.mem_append_left _ (List.mem_map_of_mem _ hk2)
    · show (((LRUCache.empty α m).setList now ((h0 :: t) ++ [klast]) f)).cache.any _ = true
      rw [hfinal, List.any_eq_true]
      refine ⟨(klast, (⟨f klast, now⟩ : LRUEntry α)), ?_, by simp⟩
      exact List.mem_append_right _ (by simp)

/-- C5 witness: `maxSize = 2`, operations `set a, set b, get a, set c`
(size stays ≤ 2), and the eviction scenario with keys `a, b, c`. -/
theorem lruCache_size_bound_and_fifo_eviction_witness :
    ((LRUCache.empty Nat 2).run
        [LRUOp.setOp 0 "a" 1, LRUOp.setOp 0 "b" 2, LRUOp.getOp 1 "a",
         LRUOp.setOp 2 "c" 3]).size ≤ 2
  ∧ (∀ h0, (["a", "b"] : List String).head? = some h0 →
      (((LRUCache.empty Nat 2).setList 0 (["a", "b"] ++ ["c"]) (fun _ => 0)).hasOp h0).1 = false)
  ∧ (∀ k2 ∈ (["a", "b"] : List String).tail,
      (((LRUCache.empty Nat 2).setList 0 (["a", "b"] ++ ["c"]) (fun _ => 0)).hasOp k2).1 = true)
  ∧ (((LRUCache.empty Nat 2).setList 0 (["a", "b"] ++ ["c"]) (fun _ => 0)).hasOp "c").1 = true :=
  lruCache_size_bound_and_fifo_eviction 2
    [LRUOp.setOp 0 "a" 1, LRUOp.setOp 0 "b" 2, LRUOp.getOp 1 "a", LRUOp.setOp 2 "c" 3]
    0 ["a", "b"] "c" (fun _ => 0) (by decide) (by decide) (by decide)

/-- C5 counterexample: with `maxSize = 0` a single `set` leaves the
cache at size `1 > 0 = maxSize` (the source deletes the `undefined`
first key of the empty map, a no-op, then inserts), so "size never
exceeds maxSize for every instance" is false. -/
theorem lruCache_maxSize_zero_counterexample :
    ((LRUCache.empty Nat 0).set 0 "a" 1).size = 1
      ∧ ((LRUCache.empty Nat 0).set 0 "a" 1).maxSize = 0 := by
  decide

/-- C8: `has` performs a pure membership test — its returned state is
the unchanged cache, so any subsequent operation sequence behaves as if
`has` had never been called — while `get` on an existing key re-inserts
the entry at the most-recently-used end, so that a subsequent insertion
of a fresh key at capacity evicts an older entry whose key differs from
the just-accessed one, which itself remains present. -/
theorem lruCache_has_pure_get_promotes (c : LRUCache α) (k k2 : String)
    (now now2 : Nat) (v : α) (e : LRUEntry α)
    (hnodup : (c.cache.map Prod.fst).Nodup)
    (hmem : List.lookup k c.cache = some e)
    (hcap : c.cache.length = c.maxSize)
    (h2 : 2 ≤ c.cache.length)
    (hfresh : List.lookup k2 c.cache = none) :
    (c.hasOp k).2 = c
  ∧ (c.hasOp k).1 = (List.lookup k c.cache).isSome
  ∧ (c.get now k).2.cache = mapDelete c.cache k ++ [(k, (⟨e.value, now⟩ : LRUEntry α))]
  ∧ (((c.get now k).2.set now2 k2 v).hasOp k).1 = true
  ∧ (((c.get now k).2.set now2 k2 v).hasOp k2).1 = true
  ∧ ∃ p ∈ c.cache, p.1 ≠ k ∧ (((c.get now k).2.set now2 k2 v).hasOp p.1).1 = false := by
  have hkne : ¬ k2 = k := by
    intro hc
    rw [hc, hmem] at hfresh
    cases hfresh
  have hc1 : (c.get now k).2.cache
      = mapDelete c.cache k ++ [(k, (⟨e.value, now⟩ : LRUEntry α))] := by
    simp [LRUCache.get, hmem]
  have hDlen : (mapDelete c.cache k).length + 1 = c.cache.length :=
    mapDelete_length_add_one c.cache k hnodup (by rw [hmem]; rfl)
  obtain ⟨p0, D', hD⟩ : ∃ p0 D', mapDelete c.cache k = p0 :: D' := by
    cases hDeq : mapDelete c.cache k with
    | nil =>
      rw [hDeq] at hDlen
      simp at hDlen
      omega
    | cons a b => exact ⟨a, b, rfl⟩
  have hfresh1 : List.lookup k2 (c.get now k).2.cache = none := by
    rw [hc1, List.lookup_append, lookup_mapDelete_ne c.cache k k2 hkne, hfresh]
    have hb : (k2 == k) = false := by simpa using hkne
    simp [List.lookup_cons, hb]
  have hany1 : ((c.get now k).2.cache.any fun p => p.1 == k2) = false := by
    rw [any_beq_eq_lookup_isSome, hfresh1]
    rfl
  have hms : (c.get now k).2.maxSize = c.maxSize := by
    simp [LRUCache.get, hmem]
  have hcap1 : (c.get now k).2.maxSize ≤ (c.get now k).2.cache.length := by
    rw [hms, hc1, List.length_append, List.length_cons, List.length_nil, ← hcap]
    omega
  have hfin : ((c.get now k).2.set now2 k2 v).cache
      = D' ++ [(k, (⟨e.value, now⟩ : LRUEntry α)), (k2, (⟨v, now2⟩ : LRUEntry α))] := by
    have hstep : ((c.get now k).2.set now2 k2 v).cache
        = ((c.get now k).2.cache).tail ++ [(k2, (⟨v, now2⟩ : LRUEntry α))] := by
      simp [LRUCache.set, hany1, hcap1]
    rw [hstep, hc1, hD]
    simp [List.cons_append, List.append_assoc]
  have hp0D : p0 ∈ mapDelete c.cache k := by
    rw [hD]
    exact List.mem_cons_self p0 D'
  have hp0mem : p0 ∈ c.cache := List.mem_of_mem_filter hp0D
  have hp0ne : ¬ p0.1 = k := by
    have := hp0D
    rw [mapDelete, List.mem_filter] at this
    simpa using this.2
  have hDnodup : ((mapDelete c.cache k).map Prod.fst).Nodup :=
    List.Nodup.sublist (List.Sublist.map Prod.fst (List.filter_sublist _)) hnodup
  have hp0notD' : p0.1 ∉ D'.map Prod.fst := by
    rw [hD, List.map_cons, List.nodup_cons] at hDnodup
    exact hDnodup.1
  have hp0ne2 : ¬ p0.1 = k2 := by
    intro hc
    rw [List.lookup_eq_none_iff] at hfresh
    have := hfresh p0 hp0mem
    simp [hc] at this
  refine ⟨rfl, any_beq_eq_lookup_isSome c.cache k, hc1, ?_, ?_, ⟨p0, hp0mem, hp0ne, ?_⟩⟩
  · show ((c.get now k).2.set now2 k2 v).cache.any _ = true
    rw [hfin, List.any_eq_true]
    exact ⟨(k, ⟨e.value, now⟩), List.mem_append_right _ (by simp), by simp⟩
  · show ((c.get now k).2.set now2 k2 v).cache.any _ = true
    rw [hfin, List.any_eq_true]
    exact ⟨(k2, ⟨v, now2⟩), List.mem_append_right _ (by simp), by simp⟩
  · show ((c.get now k).2.set now2 k2 v).cache.any _ = false
    rw [any_beq_eq_lookup_isSome]
    have hnone : List.lookup p0.1 ((c.get now k).2.set now2 k2 v).cache = none := by
      rw [hfin, List.lookup_eq_none_iff]
      intro q hq
      rcases List.mem_append.mp hq with h | h
      · have hq1 : q.1 ∈ D'.map Prod.fst := List.mem_map_of_mem Prod.fst h
        simpa using fun hc : p0.1 = q.1 => hp0notD' (hc ▸ hq1)
      · rcases List.mem_cons.mp h with h | h
        · subst h
          simpa using hp0ne
        · rw [List.mem_singleton] at h
          subst h
          simpa using hp0ne2
    rw [hnone]
    rfl

/-- C8 witness: cache `[a, b]` at capacity 2; `get a` then `set c`
leaves `a` present and evicts `b` (an older key different from `a`). -/
theorem lruCache_has_pure_get_promotes_witness :
    ((⟨[("a", ⟨1, 0⟩), ("b", ⟨2, 0⟩)], 2⟩ : LRUCache Nat).hasOp "a").2
        = (⟨[("a", ⟨1, 0⟩), ("b", ⟨2, 0⟩)], 2⟩ : LRUCache Nat)
  ∧ ((⟨[("a", ⟨1, 0⟩), ("b", ⟨2, 0⟩)], 2⟩ : LRUCache Nat).hasOp "a").1
        = (List.lookup "a" (⟨[("a", ⟨1, 0⟩), ("b", ⟨2, 0⟩)], 2⟩ : LRUCache Nat).cache).isSome
  ∧ ((⟨[("a", ⟨1, 0⟩), ("b", ⟨2, 0⟩)], 2⟩ : LRUCache Nat).get 5 "a").2.cache
        = mapDelete (⟨[("a", ⟨1, 0⟩), ("b", ⟨2, 0⟩)], 2⟩ : LRUCache Nat).cache "a"
            ++ [("a", (⟨1, 5⟩ : LRUEntry Nat))]
  ∧ ((((⟨[("a", ⟨1, 0⟩), ("b", ⟨2, 0⟩)], 2⟩ : LRUCache Nat).get 5 "a").2.set 6 "c" 3).hasOp
        "a").1 = true
  ∧ ((((⟨[("a", ⟨1, 0⟩), ("b", ⟨2, 0⟩)], 2⟩ : LRUCache Nat).get 5 "a").2.set 6 "c" 3).hasOp
        "c").1 = true
  ∧ ∃ p ∈ (⟨[("a", ⟨1, 0⟩), ("b", ⟨2, 0⟩)], 2⟩ : LRUCache Nat).cache, p.1 ≠ "a"
      ∧ ((((⟨[("a", ⟨1, 0⟩), ("b", ⟨2, 0⟩)], 2⟩ : LRUCache Nat).get 5 "a").2.set 6 "c"
          3).hasOp p.1).1 = false :=
  lruCache_has_pure_get_promotes ⟨[("a", ⟨1, 0⟩), ("b", ⟨2, 0⟩)], 2⟩ "a" "c" 5 6 3 ⟨1, 0⟩
    (by decide) (by decide) (by decide) (by decide) (by decide)
